import Mathlib

/-!
Verification of the DFA engine (`automata_dfa.py`).

Shallow embedding of the `DFA` class from `src/automata_dfa.py`.

Modelling choices:
* Python states and symbols are strings in practice; we use `String`.
* Python `set` fields (`states`, `alphabet`, `accept`) become `Finset String`;
  like Python sets they are unordered and deduplicated, and every loop the
  source runs over them is content-determined (the source only tests
  membership, or fills entries with `setdefault`, whose final content is
  independent of iteration order).
* The nested dict `delta : Dict[str, Dict[str, str]]` is observed by the
  source exclusively through the composite lookup
  `self.delta.get(s, {}).get(a)`; we embed it as the curried partial
  function `String → String → Option String`.  The caller-supplied
  transition *specification* handed to `__init__`, whose keys and targets
  `__init__` enumerates, is kept concrete as a nested association list
  (a Python dict has distinct keys; lookup takes the first match).
* `None` becomes `none`; methods that mutate `self` return the new `DFA`
  (paired with the Python return value where there is one).
-/

namespace AutomataDFA

/-- Lookup in an association list, mirroring Python `dict.get`:
`dget d k` is the value at key `k`, or `none`. -/
def dget {α : Type} : List (String × α) → String → Option α
  | [], _ => none
  | p :: t, k => if p.1 = k then some p.2 else dget t k

/-- A caller-supplied transition specification: the nested dict
`delta = {src: {symbol: tgt}}` passed to `DFA.__init__`. -/
abbrev DeltaSpec := List (String × List (String × String))

/-- The composite lookup `delta.get(s, {}).get(a)` on a specification. -/
def deltaLookup (spec : DeltaSpec) (s a : String) : Option String :=
  match dget spec s with
  | none => none
  | some m => dget m a

/-- The outer keys of the specification: the sources `__init__` adds to
`states` while copying (`for s, trans in delta.items(): ... states.add(s)`). -/
def specKeys (spec : DeltaSpec) : List String :=
  spec.map Prod.fst

/-- All transition targets of the specification: the states `__init__`
adds via `for s_map in self.delta.values(): for tgt in s_map.values()`. -/
def specTargets (spec : DeltaSpec) : List String :=
  (spec.map (fun p => p.2.map Prod.snd)).flatten

/-- The reserved dead-state name, `DFA.DEAD = "__DEAD__"`. -/
def DEAD : String := "__DEAD__"

/-- The `DFA` object: structural definition plus the live cursor `current`. -/
structure DFA where
  states : Finset String
  alphabet : Finset String
  delta : String → String → Option String
  start : Option String
  accept : Finset String
  current : Option String

/-- The structural definition of a `DFA`: every field except the simulation
cursor `current`.  Used to state frame properties of the simulation calls. -/
structure DFADef where
  states : Finset String
  alphabet : Finset String
  delta : String → String → Option String
  start : Option String
  accept : Finset String

/-- Project a `DFA` to its structural definition. -/
def DFA.toDef (d : DFA) : DFADef :=
  ⟨d.states, d.alphabet, d.delta, d.start, d.accept⟩

/-- Embedding of `DFA._make_total`, acting on the `states` set and the transition table.

The source (lines 71-106): first gives every state an (empty) outer entry
(`delta.setdefault(s, {})` — invisible to the composite lookup), returns if
the alphabet is empty, then scans a snapshot of `states × alphabet` for a
missing entry; if one is missing it adds `DEAD` to `states`, gives `DEAD` a
self-loop on every symbol via `setdefault` (so pre-existing entries of a
state named `"__DEAD__"` are kept), and fills every still-missing
(state, symbol) pair over the enlarged state set with a transition to
`DEAD`, again via `setdefault`.  `setdefault` keeps existing entries, so
the resulting table maps (s, a) to its old target when defined and to
`DEAD` when it was missing and s is a (new) state and a is a symbol. -/
def makeTotal (states alphabet : Finset String)
    (delta : String → String → Option String) :
    Finset String × (String → String → Option String) :=
  if alphabet = ∅ then (states, delta)
  else if ∃ s ∈ states, ∃ a ∈ alphabet, delta s a = none then
    let states' := insert DEAD states
    (states', fun s a =>
      match delta s a with
      | some t => some t
      | none => if s ∈ states' ∧ a ∈ alphabet then some DEAD else none)
  else (states, delta)

/-- Embedding of `DFA._make_total` as a method on the object: replaces `states` and
`delta`, leaves `alphabet`, `start`, `accept`, `current` untouched. -/
def DFA.make_total (d : DFA) : DFA :=
  let p := makeTotal d.states d.alphabet d.delta
  { d with states := p.1, delta := p.2 }

/-- Embedding of `DFA.reset`: `self.current = self.start`. -/
def DFA.reset (d : DFA) : DFA :=
  { d with current := d.start }

/-- Embedding of `DFA.__init__(states, alphabet, delta, start, accept, make_total)`:
collect the states (declared, specification keys, specification targets),
the alphabet and the accept set; build the table from the specification
(the defensive copy is immaterial to a pure embedding); run
`_make_total` when asked; finally `reset` initializes `current`. -/
def mkDFA (states0 alphabet0 : List String) (spec : DeltaSpec)
    (start : Option String) (accept0 : List String)
    (make_total : Bool) : DFA :=
  let states1 :=
    states0.toFinset ∪ (specKeys spec).toFinset ∪ (specTargets spec).toFinset
  let base : DFA :=
    { states := states1
      alphabet := alphabet0.toFinset
      delta := deltaLookup spec
      start := start
      accept := accept0.toFinset
      current := none }
  let d1 := if make_total then base.make_total else base
  d1.reset

/-- Embedding of `DFA.add_state(name, is_accept)`. -/
def DFA.add_state (d : DFA) (name : String) (isAccept : Bool) : DFA :=
  { d with
    states := insert name d.states
    accept := if isAccept then insert name d.accept else d.accept }

/-- Embedding of `DFA.add_transition(src, symbol, tgt)`:
adds `src` and `tgt` to `states`, `symbol` to `alphabet`, and overwrites
the (src, symbol) entry of the table with `tgt`. -/
def DFA.add_transition (d : DFA) (src symbol tgt : String) : DFA :=
  { d with
    states := insert tgt (insert src d.states)
    alphabet := insert symbol d.alphabet
    delta := fun s a =>
      if s = src ∧ a = symbol then some tgt else d.delta s a }

/-- Embedding of `DFA.step(symbol)`: returns `none` when the symbol is outside the
alphabet or `current` is unset; otherwise moves `current` to
`delta.get(current, {}).get(symbol)` (possibly unset) and returns it.
The result pairs the updated object with the Python return value. -/
def DFA.step (d : DFA) (symbol : String) : DFA × Option String :=
  if symbol ∈ d.alphabet then
    match d.current with
    | none => (d, none)
    | some c =>
      let nxt := d.delta c symbol
      ({ d with current := nxt }, nxt)
  else (d, none)

/-- The loop body of `DFA.run` after the initial `reset`: abort with `none`
at the first out-of-alphabet symbol, otherwise `step` through the word and
return the final `current`. -/
def runFrom (d : DFA) : List String → DFA × Option String
  | [] => (d, d.current)
  | ch :: rest =>
    if ch ∈ d.alphabet then runFrom (d.step ch).1 rest
    else (d, none)

/-- Embedding of `DFA.run(w)`: `reset` then consume `w`. -/
def DFA.run (d : DFA) (w : List String) : DFA × Option String :=
  runFrom d.reset w

/-- Embedding of `DFA.accepts(w)`: run `w`; `none` when the run was invalid, otherwise
whether the final state lies in `accept`. -/
def DFA.accepts (d : DFA) (w : List String) : DFA × Option Bool :=
  let r := d.run w
  match r.2 with
  | none => (r.1, none)
  | some f => (r.1, some (decide (f ∈ r.1.accept)))

/-- Embedding of `example_ends_with_ab()`: the sample DFA over `{a, b}` accepting
strings that end in "ab". -/
def exampleEndsWithAB : DFA :=
  mkDFA ["q0", "q1", "q2"] ["a", "b"]
    [("q0", [("a", "q1"), ("b", "q0")]),
     ("q1", [("a", "q1"), ("b", "q2")]),
     ("q2", [("a", "q1"), ("b", "q0")])]
    (some "q0") ["q2"] true

/-! Helper lemmas about the embedded operations. -/

/-- The value computed by the `run` loop, as a pure function of the
alphabet, the table and the starting cursor: `none` once an
out-of-alphabet symbol is hit, otherwise the threaded cursor. -/
def runVal (alphabet : Finset String) (delta : String → String → Option String) :
    Option String → List String → Option String
  | cur, [] => cur
  | cur, ch :: rest =>
    if ch ∈ alphabet then
      runVal alphabet delta (cur.bind fun c => delta c ch) rest
    else none

/-- The value computed by `accepts`, as a pure function of the structural
definition. -/
def acceptsVal (e : DFADef) (w : List String) : Option Bool :=
  match runVal e.alphabet e.delta e.start w with
  | none => none
  | some f => some (decide (f ∈ e.accept))

theorem step_fst_toDef (d : DFA) (a : String) :
    ((d.step a).1).toDef = d.toDef := by
  unfold DFA.step
  split
  · split <;> rfl
  · rfl

theorem step_fst_current (d : DFA) (a : String) (h : a ∈ d.alphabet) :
    ((d.step a).1).current = d.current.bind fun c => d.delta c a := by
  cases hc : d.current with
  | none => simp [DFA.step, if_pos h, hc]
  | some c => simp [DFA.step, if_pos h, hc]

theorem runFrom_fst_toDef (d : DFA) (w : List String) :
    ((runFrom d w).1).toDef = d.toDef := by
  induction w generalizing d with
  | nil => rfl
  | cons ch rest ih =>
    unfold runFrom
    by_cases h : ch ∈ d.alphabet
    · rw [if_pos h, ih, step_fst_toDef]
    · rw [if_neg h]

theorem runFrom_snd (d : DFA) (w : List String) :
    (runFrom d w).2 = runVal d.alphabet d.delta d.current w := by
  induction w generalizing d with
  | nil => rfl
  | cons ch rest ih =>
    unfold runFrom runVal
    by_cases h : ch ∈ d.alphabet
    · rw [if_pos h, if_pos h, ih]
      have h1 : ((d.step ch).1).alphabet = d.alphabet :=
        congrArg DFADef.alphabet (step_fst_toDef d ch)
      have h2 : ((d.step ch).1).delta = d.delta :=
        congrArg DFADef.delta (step_fst_toDef d ch)
      rw [h1, h2, step_fst_current d ch h]
    · rw [if_neg h, if_neg h]

theorem run_fst_toDef (d : DFA) (w : List String) :
    ((d.run w).1).toDef = d.toDef := by
  unfold DFA.run
  rw [runFrom_fst_toDef]
  rfl

theorem run_snd (d : DFA) (w : List String) :
    (d.run w).2 = runVal d.alphabet d.delta d.start w := by
  unfold DFA.run
  rw [runFrom_snd]
  rfl

theorem accepts_fst_toDef (d : DFA) (w : List String) :
    ((d.accepts w).1).toDef = d.toDef := by
  unfold DFA.accepts
  cases hr : (d.run w).2 <;> simp [hr] <;> exact run_fst_toDef d w

theorem accepts_snd (d : DFA) (w : List String) :
    (d.accepts w).2 = acceptsVal d.toDef w := by
  unfold DFA.accepts acceptsVal
  have hv : runVal (DFA.toDef d).alphabet (DFA.toDef d).delta (DFA.toDef d).start w
      = (d.run w).2 := (run_snd d w).symm
  rw [hv]
  have hacc : ((d.run w).1).accept = d.accept :=
    congrArg DFADef.accept (run_fst_toDef d w)
  cases hr : (d.run w).2 with
  | none => simp [hr]
  | some f => simp [hr, hacc, DFA.toDef]

theorem runVal_of_none (alphabet : Finset String)
    (delta : String → String → Option String) (w : List String) :
    runVal alphabet delta none w = none := by
  induction w with
  | nil => rfl
  | cons ch rest ih =>
    unfold runVal
    by_cases h : ch ∈ alphabet
    · rw [if_pos h]
      exact ih
    · rw [if_neg h]

theorem runVal_of_invalid (alphabet : Finset String)
    (delta : String → String → Option String) (cur : Option String)
    (w : List String) (h : ∃ ch ∈ w, ch ∉ alphabet) :
    runVal alphabet delta cur w = none := by
  induction w generalizing cur with
  | nil =>
    obtain ⟨ch, hm, _⟩ := h
    exact absurd hm (List.not_mem_nil ch)
  | cons x rest ih =>
    unfold runVal
    by_cases hx : x ∈ alphabet
    · rw [if_pos hx]
      apply ih
      obtain ⟨ch, hm, hna⟩ := h
      rcases List.mem_cons.mp hm with h1 | h2
      · exact absurd (h1 ▸ hx) hna
      · exact ⟨ch, h2, hna⟩
    · rw [if_neg hx]

theorem makeTotal_of_total (states alphabet : Finset String)
    (delta : String → String → Option String)
    (h : ∀ s ∈ states, ∀ a ∈ alphabet, delta s a ≠ none) :
    makeTotal states alphabet delta = (states, delta) := by
  unfold makeTotal
  by_cases h0 : alphabet = ∅
  · rw [if_pos h0]
  · rw [if_neg h0, if_neg]
    rintro ⟨s, hs, a, ha, hna⟩
    exact h s hs a ha hna

theorem makeTotal_pos (states alphabet : Finset String)
    (delta : String → String → Option String)
    (h0 : alphabet ≠ ∅)
    (h1 : ∃ s ∈ states, ∃ a ∈ alphabet, delta s a = none) :
    makeTotal states alphabet delta =
      (insert DEAD states, fun s a =>
        match delta s a with
        | some t => some t
        | none =>
          if s ∈ insert DEAD states ∧ a ∈ alphabet then some DEAD
          else none) := by
  unfold makeTotal
  rw [if_neg h0, if_pos h1]

theorem makeTotal_states_subset (states alphabet : Finset String)
    (delta : String → String → Option String) :
    states ⊆ (makeTotal states alphabet delta).1 := by
  unfold makeTotal
  by_cases h0 : alphabet = ∅
  · rw [if_pos h0]
  · rw [if_neg h0]
    by_cases h1 : ∃ s ∈ states, ∃ a ∈ alphabet, delta s a = none
    · rw [if_pos h1]
      exact Finset.subset_insert _ _
    · rw [if_neg h1]

theorem makeTotal_total (states alphabet : Finset String)
    (delta : String → String → Option String) :
    ∀ s ∈ (makeTotal states alphabet delta).1, ∀ a ∈ alphabet,
      (makeTotal states alphabet delta).2 s a ≠ none := by
  by_cases h0 : alphabet = ∅
  · intro s _ a ha
    rw [h0] at ha
    exact absurd ha (Finset.not_mem_empty a)
  · by_cases h1 : ∃ s ∈ states, ∃ a ∈ alphabet, delta s a = none
    · rw [makeTotal_pos states alphabet delta h0 h1]
      intro s hs a ha
      cases hd : delta s a with
      | some t => simp [hd]
      | none =>
        have hs' : s ∈ insert DEAD states := hs
        simp [hd]
        exact And.intro (Finset.mem_insert.mp hs') ha
    · push_neg at h1
      rw [makeTotal_of_total states alphabet delta h1]
      exact h1

theorem mkDFA_true_states (states0 alphabet0 : List String) (spec : DeltaSpec)
    (start : Option String) (accept0 : List String) :
    (mkDFA states0 alphabet0 spec start accept0 true).states =
      (makeTotal
        (states0.toFinset ∪ (specKeys spec).toFinset ∪ (specTargets spec).toFinset)
        alphabet0.toFinset (deltaLookup spec)).1 := rfl

theorem mkDFA_true_delta (states0 alphabet0 : List String) (spec : DeltaSpec)
    (start : Option String) (accept0 : List String) :
    (mkDFA states0 alphabet0 spec start accept0 true).delta =
      (makeTotal
        (states0.toFinset ∪ (specKeys spec).toFinset ∪ (specTargets spec).toFinset)
        alphabet0.toFinset (deltaLookup spec)).2 := rfl

theorem mkDFA_true_alphabet (states0 alphabet0 : List String) (spec : DeltaSpec)
    (start : Option String) (accept0 : List String) :
    (mkDFA states0 alphabet0 spec start accept0 true).alphabet =
      alphabet0.toFinset := rfl

theorem subset_mkDFA_states (states0 alphabet0 : List String) (spec : DeltaSpec)
    (start : Option String) (accept0 : List String) (mt : Bool) :
    states0.toFinset ⊆ (mkDFA states0 alphabet0 spec start accept0 mt).states := by
  have h1 : states0.toFinset ⊆
      states0.toFinset ∪ (specKeys spec).toFinset ∪ (specTargets spec).toFinset :=
    Finset.subset_union_left.trans Finset.subset_union_left
  cases mt with
  | false => exact h1
  | true => exact h1.trans (makeTotal_states_subset _ _ _)

theorem toDefCongr_alphabet {d e : DFA} (h : d.toDef = e.toDef) :
    d.alphabet = e.alphabet := congrArg DFADef.alphabet h

theorem toDefCongr_delta {d e : DFA} (h : d.toDef = e.toDef) :
    d.delta = e.delta := congrArg DFADef.delta h

theorem toDefCongr_start {d e : DFA} (h : d.toDef = e.toDef) :
    d.start = e.start := congrArg DFADef.start h

/-! The claims. -/

/-- C1: after construction with `make_total = true`, the transition table is
total — every state of the resulting automaton has a defined target on every
symbol of its alphabet — and consequently `step` on an in-alphabet symbol,
with `current` set to a state of the automaton, never returns the unset
sentinel because of a missing table entry. -/
theorem construction_totality (states0 alphabet0 : List String) (spec : DeltaSpec)
    (start : Option String) (accept0 : List String) :
    (∀ s ∈ (mkDFA states0 alphabet0 spec start accept0 true).states,
      ∀ a ∈ (mkDFA states0 alphabet0 spec start accept0 true).alphabet,
        (mkDFA states0 alphabet0 spec start accept0 true).delta s a ≠ none) ∧
    (∀ e : DFA, (∀ s ∈ e.states, ∀ a ∈ e.alphabet, e.delta s a ≠ none) →
      ∀ c a, e.current = some c → c ∈ e.states → a ∈ e.alphabet →
        (e.step a).2 ≠ none) := by
  constructor
  · intro s hs a ha
    rw [mkDFA_true_states] at hs
    rw [mkDFA_true_alphabet] at ha
    rw [mkDFA_true_delta]
    exact makeTotal_total _ _ _ s hs a ha
  · intro e he c a hc hcs ha
    unfold DFA.step
    rw [if_pos ha, hc]
    show e.delta c a ≠ none
    exact he c hcs a ha

/-- Witness for C1: a concrete partial automaton, completed at
construction, steps from its start state without hitting a missing
entry. -/
theorem construction_totality_app :
    ((mkDFA ["q0"] ["a"] [] (some "q0") [] true).step "a").2 ≠ none := by
  have h := construction_totality ["q0"] ["a"] [] (some "q0") []
  exact h.2 (mkDFA ["q0"] ["a"] [] (some "q0") [] true) h.1 "q0" "a"
    (by decide) (by decide) (by decide)

/-- C3: a sequence containing any out-of-alphabet symbol makes `run` and
`accepts` return the invalid sentinel `none`, regardless of the symbols
before or after it: the first such symbol aborts the whole run. -/
theorem run_invalid_of_outside_symbol (d : DFA) (w : List String)
    (h : ∃ ch ∈ w, ch ∉ d.alphabet) :
    (d.run w).2 = none ∧ (d.accepts w).2 = none := by
  have hr : (d.run w).2 = none := by
    rw [run_snd]
    exact runVal_of_invalid _ _ _ _ h
  refine ⟨hr, ?_⟩
  rw [accepts_snd]
  unfold acceptsVal
  rw [runVal_of_invalid d.toDef.alphabet d.toDef.delta d.toDef.start w h]

/-- Witness for C3: the sample automaton rejects `"ac"` as invalid, since
`c` is not a symbol of its alphabet. -/
theorem run_invalid_of_outside_symbol_app :
    (exampleEndsWithAB.run ["a", "c"]).2 = none ∧
    (exampleEndsWithAB.accepts ["a", "c"]).2 = none :=
  run_invalid_of_outside_symbol exampleEndsWithAB ["a", "c"]
    ⟨"c", by decide, by decide⟩

/-- C4: simulation is deterministic — evaluating `run` on the same word
twice in succession gives the same final result both times, and likewise
for `accepts`, because `run` resets the cursor first and no simulation call
touches the structural definition. -/
theorem run_deterministic (d : DFA) (w : List String) :
    (((d.run w).1).run w).2 = (d.run w).2 ∧
    (((d.accepts w).1).accepts w).2 = (d.accepts w).2 := by
  constructor
  · rw [run_snd, run_snd, toDefCongr_alphabet (run_fst_toDef d w),
      toDefCongr_delta (run_fst_toDef d w), toDefCongr_start (run_fst_toDef d w)]
  · rw [accepts_snd, accepts_snd, accepts_fst_toDef]

/-- C5: `_make_total` on an automaton whose table is already total changes
nothing: states, alphabet, every transition entry, start, accept (and even
the cursor) are returned unchanged, and no dead state is added. -/
theorem make_total_noop (d : DFA)
    (h : ∀ s ∈ d.states, ∀ a ∈ d.alphabet, d.delta s a ≠ none) :
    d.make_total = d := by
  show { d with states := (makeTotal d.states d.alphabet d.delta).1,
                delta := (makeTotal d.states d.alphabet d.delta).2 } = d
  rw [makeTotal_of_total d.states d.alphabet d.delta h]

/-- Witness for C5: completing the already-total sample automaton is the
identity. -/
theorem make_total_noop_app :
    exampleEndsWithAB.make_total = exampleEndsWithAB :=
  make_total_noop exampleEndsWithAB (by decide)

/-- C6: `run` on the empty sequence returns the start state, and `accepts`
on the empty sequence returns membership of the start state in `accept`
(mapped over an unset start). -/
theorem run_empty_sequence (d : DFA) :
    (d.run []).2 = d.start ∧
    (d.accepts []).2 = d.start.map (fun s => decide (s ∈ d.accept)) := by
  constructor
  · rfl
  · cases hs : d.start with
    | none => simp [DFA.accepts, DFA.run, runFrom, DFA.reset, hs]
    | some s => simp [DFA.accepts, DFA.run, runFrom, DFA.reset, hs]

/-- C9: the simulation calls `reset`, `step`, `run`, `accepts` leave the
structural definition — states, alphabet, transition table, start, accept —
unchanged; only `current` may change. -/
theorem simulation_preserves_definition (d : DFA) (a : String)
    (w w' : List String) :
    d.reset.toDef = d.toDef ∧
    ((d.step a).1).toDef = d.toDef ∧
    ((d.run w).1).toDef = d.toDef ∧
    ((d.accepts w').1).toDef = d.toDef :=
  ⟨rfl, step_fst_toDef d a, run_fst_toDef d w, accepts_fst_toDef d w'⟩

/-- C10: with an unset start state, `run` and `accepts` return the invalid
sentinel `none` on every sequence — including all-in-alphabet ones — so the
`none` result does not uniquely signal out-of-alphabet input. -/
theorem accepts_none_of_unset_start (d : DFA) (h : d.start = none)
    (w : List String) :
    (d.run w).2 = none ∧ (d.accepts w).2 = none := by
  have hr : (d.run w).2 = none := by
    rw [run_snd, h, runVal_of_none]
  refine ⟨hr, ?_⟩
  rw [accepts_snd]
  unfold acceptsVal
  have hs : (DFA.toDef d).start = none := h
  rw [hs, runVal_of_none]

/-- Witness for C10: an automaton with a self-loop on its only state but no
start state yields `none` on the in-alphabet word `"aa"`. -/
theorem accepts_none_of_unset_start_app :
    ((mkDFA ["q0"] ["a"] [("q0", [("a", "q0")])] none [] true).run
        ["a", "a"]).2 = none ∧
    ((mkDFA ["q0"] ["a"] [("q0", [("a", "q0")])] none [] true).accepts
        ["a", "a"]).2 = none :=
  accepts_none_of_unset_start _ rfl ["a", "a"]

theorem toDefCongr_states {d e : DFA} (h : d.toDef = e.toDef) :
    d.states = e.states := congrArg DFADef.states h

theorem toDefCongr_accept {d e : DFA} (h : d.toDef = e.toDef) :
    d.accept = e.accept := congrArg DFADef.accept h

/-- C2 (amended): when totality completion synthesizes a dead state
(nonempty alphabet, some entry missing), and the reserved name `"__DEAD__"`
has no pre-existing outgoing transitions and is not already in `accept`,
the dead state is in `states`, is absorbing — it maps to itself on every
symbol of the alphabet — and is not accepting. -/
theorem dead_state_absorbing (d : DFA)
    (hkey : ∀ a, d.delta DEAD a = none)
    (hacc : DEAD ∉ d.accept)
    (h0 : d.alphabet ≠ ∅)
    (h1 : ∃ s ∈ d.states, ∃ a ∈ d.alphabet, d.delta s a = none) :
    DEAD ∈ d.make_total.states ∧
    (∀ a ∈ d.make_total.alphabet, d.make_total.delta DEAD a = some DEAD) ∧
    DEAD ∉ d.make_total.accept := by
  have hst : d.make_total.states = (makeTotal d.states d.alphabet d.delta).1 := rfl
  have hdl : d.make_total.delta = (makeTotal d.states d.alphabet d.delta).2 := rfl
  have hal : d.make_total.alphabet = d.alphabet := rfl
  have hac : d.make_total.accept = d.accept := rfl
  rw [hst, hdl, hal, hac, makeTotal_pos d.states d.alphabet d.delta h0 h1]
  refine ⟨Finset.mem_insert_self _ _, ?_, hacc⟩
  intro a ha
  show (match d.delta DEAD a with
    | some t => some t
    | none =>
      if DEAD ∈ insert DEAD d.states ∧ a ∈ d.alphabet then some DEAD
      else none) = some DEAD
  rw [hkey a]
  show (if DEAD ∈ insert DEAD d.states ∧ a ∈ d.alphabet then some DEAD
    else none) = some DEAD
  rw [if_pos (And.intro (Finset.mem_insert_self DEAD d.states) ha)]

/-- Witness for C2: completing a one-state automaton with an empty table
synthesizes an absorbing, non-accepting dead state. -/
theorem dead_state_absorbing_app :
    DEAD ∈ (mkDFA ["q0"] ["a"] [] (some "q0") [] false).make_total.states ∧
    (∀ a ∈ (mkDFA ["q0"] ["a"] [] (some "q0") [] false).make_total.alphabet,
      (mkDFA ["q0"] ["a"] [] (some "q0") [] false).make_total.delta DEAD a
        = some DEAD) ∧
    DEAD ∉ (mkDFA ["q0"] ["a"] [] (some "q0") [] false).make_total.accept :=
  dead_state_absorbing (mkDFA ["q0"] ["a"] [] (some "q0") [] false)
    (fun _ => rfl) (by decide) (by decide)
    ⟨"q0", by decide, "a", by decide, rfl⟩

/-- Counterexample to C2 as stated: in the first automaton, completion
genuinely synthesizes the dead state (absent before, present after), yet
the dead state is accepting, because the caller listed `"__DEAD__"` in
`accept`; in the second, whose specification gives `"__DEAD__"` an
outgoing transition, the completed table leaves the dead state on `a`, so
it is not absorbing. -/
theorem dead_state_absorbing_counterexample :
    (DEAD ∉ (mkDFA ["q0"] ["a"] [] none ["__DEAD__"] false).states ∧
     DEAD ∈ (mkDFA ["q0"] ["a"] [] none ["__DEAD__"] true).states ∧
     DEAD ∈ (mkDFA ["q0"] ["a"] [] none ["__DEAD__"] true).accept) ∧
    ((mkDFA [] ["a"] [("__DEAD__", [("a", "q0")]), ("q0", [])] none []
        true).delta "q0" "a" = some DEAD ∧
     (mkDFA [] ["a"] [("__DEAD__", [("a", "q0")]), ("q0", [])] none []
        true).delta DEAD "a" = some "q0") := by decide

/-- C7 (amended): `accept ⊆ states` holds after construction provided the
caller-supplied accept iterable is contained in the caller-supplied state
iterable (construction itself never adds accept states to `states`), and it
is preserved by `add_state`, `add_transition`, totality completion, and
every simulation call. -/
theorem accept_subset_states_invariant :
    (∀ (states0 alphabet0 : List String) (spec : DeltaSpec)
        (start : Option String) (accept0 : List String) (mt : Bool),
      accept0.toFinset ⊆ states0.toFinset →
      (mkDFA states0 alphabet0 spec start accept0 mt).accept ⊆
        (mkDFA states0 alphabet0 spec start accept0 mt).states) ∧
    (∀ (d : DFA) (name : String) (b : Bool), d.accept ⊆ d.states →
      (d.add_state name b).accept ⊆ (d.add_state name b).states) ∧
    (∀ (d : DFA) (src sym tgt : String), d.accept ⊆ d.states →
      (d.add_transition src sym tgt).accept ⊆
        (d.add_transition src sym tgt).states) ∧
    (∀ d : DFA, d.accept ⊆ d.states →
      d.make_total.accept ⊆ d.make_total.states) ∧
    (∀ d : DFA, d.accept ⊆ d.states →
      d.reset.accept ⊆ d.reset.states ∧
      (∀ a : String, ((d.step a).1).accept ⊆ ((d.step a).1).states) ∧
      (∀ w : List String, ((d.run w).1).accept ⊆ ((d.run w).1).states) ∧
      (∀ w : List String,
        ((d.accepts w).1).accept ⊆ ((d.accepts w).1).states)) := by
  refine ⟨?_, ?_, ?_, ?_, ?_⟩
  · intro states0 alphabet0 spec start accept0 mt hsub
    have hacc : (mkDFA states0 alphabet0 spec start accept0 mt).accept
        = accept0.toFinset := by
      cases mt <;> rfl
    rw [hacc]
    exact hsub.trans (subset_mkDFA_states states0 alphabet0 spec start accept0 mt)
  · intro d name b h
    cases b with
    | false => exact h.trans (Finset.subset_insert _ _)
    | true => exact Finset.insert_subset_insert _ h
  · intro d src sym tgt h
    exact h.trans ((Finset.subset_insert _ _).trans (Finset.subset_insert _ _))
  · intro d h
    exact h.trans (makeTotal_states_subset d.states d.alphabet d.delta)
  · intro d h
    refine ⟨h, ?_, ?_, ?_⟩
    · intro a
      rw [toDefCongr_accept (step_fst_toDef d a),
        toDefCongr_states (step_fst_toDef d a)]
      exact h
    · intro w
      rw [toDefCongr_accept (run_fst_toDef d w),
        toDefCongr_states (run_fst_toDef d w)]
      exact h
    · intro w
      rw [toDefCongr_accept (accepts_fst_toDef d w),
        toDefCongr_states (accepts_fst_toDef d w)]
      exact h

/-- Witness for C7: a construction whose accept list is contained in its
state list satisfies `accept ⊆ states`. -/
theorem accept_subset_states_invariant_app :
    (mkDFA ["q0"] [] [] none ["q0"] true).accept ⊆
      (mkDFA ["q0"] [] [] none ["q0"] true).states :=
  accept_subset_states_invariant.1 ["q0"] [] [] none ["q0"] true (by decide)

/-- Counterexample to C7 as stated: construction accepts an accept state
outside the declared state set and never adds it to `states`, so
`accept ⊆ states` fails right after construction. -/
theorem accept_subset_states_counterexample :
    "x" ∈ (mkDFA [] [] [] none ["x"] true).accept ∧
    "x" ∉ (mkDFA [] [] [] none ["x"] true).states := by decide

/-- C8: a two-state automaton over a two-symbol alphabet whose
specification defines exactly one of the four (state, symbol) entries
gains, on construction with `make_total = true`, exactly one new state (the
dead state: `states` grows from 2 to 3), and the three previously missing
entries over the two original states are filled, each pointing at the dead
state, while the one defined entry is kept. -/
theorem partial_table_completion (q0 q1 a b t : String) (st : Option String)
    (acc : List String)
    (hq : q0 ≠ q1) (hab : a ≠ b) (hd0 : q0 ≠ DEAD) (hd1 : q1 ≠ DEAD)
    (ht : t = q0 ∨ t = q1) :
    ({q0, q1} : Finset String).card = 2 ∧
    (mkDFA [q0, q1] [a, b] [(q0, [(a, t)])] st acc true).states =
      insert DEAD {q0, q1} ∧
    (mkDFA [q0, q1] [a, b] [(q0, [(a, t)])] st acc true).states.card = 3 ∧
    deltaLookup [(q0, [(a, t)])] q0 b = none ∧
    deltaLookup [(q0, [(a, t)])] q1 a = none ∧
    deltaLookup [(q0, [(a, t)])] q1 b = none ∧
    (mkDFA [q0, q1] [a, b] [(q0, [(a, t)])] st acc true).delta q0 a = some t ∧
    (mkDFA [q0, q1] [a, b] [(q0, [(a, t)])] st acc true).delta q0 b
      = some DEAD ∧
    (mkDFA [q0, q1] [a, b] [(q0, [(a, t)])] st acc true).delta q1 a
      = some DEAD ∧
    (mkDFA [q0, q1] [a, b] [(q0, [(a, t)])] st acc true).delta q1 b
      = some DEAD := by
  have hDnot : DEAD ∉ ({q0, q1} : Finset String) := by
    intro hmem
    rcases Finset.mem_insert.mp hmem with h | h
    · exact hd0 h.symm
    · exact hd1 (Finset.mem_singleton.mp h).symm
  have hcard2 : ({q0, q1} : Finset String).card = 2 := by
    rw [Finset.card_insert_of_not_mem (by rw [Finset.mem_singleton]; exact hq),
      Finset.card_singleton]
  have hq0a : deltaLookup [(q0, [(a, t)])] q0 a = some t := by
    simp [deltaLookup, dget]
  have hq0b : deltaLookup [(q0, [(a, t)])] q0 b = none := by
    simp [deltaLookup, dget, hab]
  have hq1a : deltaLookup [(q0, [(a, t)])] q1 a = none := by
    simp [deltaLookup, dget, hq]
  have hq1b : deltaLookup [(q0, [(a, t)])] q1 b = none := by
    simp [deltaLookup, dget, hq]
  have hstates1 :
      ([q0, q1].toFinset ∪ (specKeys [(q0, [(a, t)])]).toFinset
        ∪ (specTargets [(q0, [(a, t)])]).toFinset) = ({q0, q1} : Finset String) := by
    ext x
    rcases ht with h | h <;> subst h <;>
      simp [specKeys, specTargets] <;> tauto
  have h0 : ([a, b].toFinset : Finset String) ≠ ∅ := by simp
  have h1 : ∃ s ∈ ([q0, q1].toFinset ∪ (specKeys [(q0, [(a, t)])]).toFinset
      ∪ (specTargets [(q0, [(a, t)])]).toFinset),
      ∃ x ∈ ([a, b].toFinset : Finset String),
        deltaLookup [(q0, [(a, t)])] s x = none := by
    refine ⟨q0, by simp, b, by simp, hq0b⟩
  rw [mkDFA_true_states, mkDFA_true_delta,
    makeTotal_pos _ _ _ h0 h1, hstates1]
  refine ⟨hcard2, rfl, ?_, hq0b, hq1a, hq1b, ?_, ?_, ?_, ?_⟩
  · show (insert DEAD ({q0, q1} : Finset String)).card = 3
    rw [Finset.card_insert_of_not_mem hDnot, hcard2]
  · show (match deltaLookup [(q0, [(a, t)])] q0 a with
      | some u => some u
      | none =>
        if q0 ∈ insert DEAD ({q0, q1} : Finset String) ∧ a ∈ [a, b].toFinset
        then some DEAD else none) = some t
    rw [hq0a]
  · show (match deltaLookup [(q0, [(a, t)])] q0 b with
      | some u => some u
      | none =>
        if q0 ∈ insert DEAD ({q0, q1} : Finset String) ∧ b ∈ [a, b].toFinset
        then some DEAD else none) = some DEAD
    rw [hq0b]
    show (if q0 ∈ insert DEAD ({q0, q1} : Finset String) ∧ b ∈ [a, b].toFinset
      then some DEAD else none) = some DEAD
    rw [if_pos (And.intro (by simp) (by simp))]
  · show (match deltaLookup [(q0, [(a, t)])] q1 a with
      | some u => some u
      | none =>
        if q1 ∈ insert DEAD ({q0, q1} : Finset String) ∧ a ∈ [a, b].toFinset
        then some DEAD else none) = some DEAD
    rw [hq1a]
    show (if q1 ∈ insert DEAD ({q0, q1} : Finset String) ∧ a ∈ [a, b].toFinset
      then some DEAD else none) = some DEAD
    rw [if_pos (And.intro (by simp) (by simp))]
  · show (match deltaLookup [(q0, [(a, t)])] q1 b with
      | some u => some u
      | none =>
        if q1 ∈ insert DEAD ({q0, q1} : Finset String) ∧ b ∈ [a, b].toFinset
        then some DEAD else none) = some DEAD
    rw [hq1b]
    show (if q1 ∈ insert DEAD ({q0, q1} : Finset String) ∧ b ∈ [a, b].toFinset
      then some DEAD else none) = some DEAD
    rw [if_pos (And.intro (by simp) (by simp))]

/-- Witness for C8: the concrete two-state automaton with the single entry
q0 -a→ q1 ends up with three states and q0 -b→ dead. -/
theorem partial_table_completion_app :
    (mkDFA ["q0", "q1"] ["a", "b"] [("q0", [("a", "q1")])] (some "q0") []
      true).states.card = 3 ∧
    (mkDFA ["q0", "q1"] ["a", "b"] [("q0", [("a", "q1")])] (some "q0") []
      true).delta "q0" "b" = some DEAD := by
  have h := partial_table_completion "q0" "q1" "a" "b" "q1" (some "q0") []
    (by decide) (by decide) (by decide) (by decide) (Or.inr rfl)
  exact ⟨h.2.2.1, h.2.2.2.2.2.2.2.1⟩

end AutomataDFA
